import Mathlib

/-!
Verification of the claude-webex-bridge message relay engine.

Shallow embedding of the Python sources:
  * `src/bot.py`        — byte-aware message splitter (`split_message`,
    `_hard_split_line`), per-room state (`BotState`), conversational turn
    handling (`handle_text_message`), and the per-room body of `poll_loop`.
  * `src/webex_api.py`  — the retry loop of `WebexAPI._request`.
  * `src/claude_cli.py` — the subprocess bridge `send_message`.

Python strings are modelled as `List Char` (a Python `str` is a sequence of
code points; its UTF-8 encoded length is the sum of the per-character UTF-8
sizes, `Char.utf8Size`).  Mutable per-room dictionaries are modelled as
functions `Nat → _` updated pointwise; opaque Webex identifiers are modelled
as `Nat` (the code only ever compares them for equality).
-/

/-! ## Byte-aware splitter (bot.py lines 49–90) -/

/-- UTF-8 encoded byte length of a string, `len(text.encode("utf-8"))`. -/
def utf8Len (s : List Char) : Nat := (s.map Char.utf8Size).sum

/-- Python `text.split("\n")`: `"" ↦ [""]`, `"a\nb" ↦ ["a", "b"]`. -/
def splitLines : List Char → List (List Char)
  | [] => [[]]
  | c :: rest =>
    match splitLines rest with
    | [] => [[c]]
    | l :: ls => if c = '\n' then [] :: l :: ls else (c :: l) :: ls

/-- The lines of `ls`, each preceded by the `'\n'` that separated it from its
predecessor.  Helper for restating the `"\n"`-join of a list of lines. -/
def tailNL : List (List Char) → List Char
  | [] => []
  | l :: ls => '\n' :: (l ++ tailNL ls)

/-- Joining a list of lines with `"\n"` (the inverse of `splitLines`). -/
def interNL : List (List Char) → List Char
  | [] => []
  | l :: ls => l ++ tailNL ls

/-- Loop body of `_hard_split_line` (bot.py lines 79–90): fold over the
characters of the line with accumulator `parts` and running chunk `current`. -/
def hardSplitGo (maxBytes : Nat) : List Char → List (List Char) → List Char → List (List Char)
  | [], parts, current => if current = [] then parts else parts ++ [current]
  | c :: rest, parts, current =>
    if utf8Len (current ++ [c]) > maxBytes then
      hardSplitGo maxBytes rest (parts ++ [current]) [c]
    else
      hardSplitGo maxBytes rest parts (current ++ [c])

/-- `_hard_split_line(line, max_bytes)` from bot.py lines 77–90: split a single
long line by byte length without breaking UTF-8 characters. -/
def hard_split_line (line : List Char) (maxBytes : Nat) : List (List Char) :=
  hardSplitGo maxBytes line [] []

/-- The `candidate` of bot.py line 58: `current + "\n" + line if current else line`. -/
def joinCand (current line : List Char) : List Char :=
  if current = [] then line else current ++ '\n' :: line

/-- Flushing `current` into `chunks` (bot.py lines 60–62): append it only when
it is non-empty. -/
def flushChunk (chunks : List (List Char)) (current : List Char) : List (List Char) :=
  if current = [] then chunks else chunks ++ [current]

/-- Loop body of `split_message` (bot.py lines 57–74): fold over the lines of
the text with accumulator `chunks` and running chunk `current`. -/
def splitGo (maxBytes : Nat) : List (List Char) → List (List Char) → List Char → List (List Char)
  | [], chunks, current => flushChunk chunks current
  | line :: rest, chunks, current =>
    if utf8Len (joinCand current line) > maxBytes then
      if utf8Len line > maxBytes then
        splitGo maxBytes rest (flushChunk chunks current ++ hard_split_line line maxBytes) []
      else
        splitGo maxBytes rest (flushChunk chunks current) line
    else
      splitGo maxBytes rest chunks (joinCand current line)

/-- `split_message(text, max_bytes)` from bot.py lines 49–74: split text into
chunks that each fit within `max_bytes` when UTF-8 encoded. -/
def split_message (text : List Char) (maxBytes : Nat) : List (List Char) :=
  if utf8Len text ≤ maxBytes then [text]
  else splitGo maxBytes (splitLines text) [] []

/-- `chunks` can be re-joined into `t` by inserting, between consecutive
chunks, either nothing (a mid-line hard split) or the original `'\n'`
line-break separator. -/
inductive Reassembles : List (List Char) → List Char → Prop
  | nil : Reassembles [] []
  | consEmpty (c : List Char) {cs : List (List Char)} {t : List Char} :
      Reassembles cs t → Reassembles (c :: cs) (c ++ t)
  | consNl (c : List Char) {cs : List (List Char)} {t : List Char} :
      Reassembles cs t → Reassembles (c :: cs) (c ++ '\n' :: t)

-- Sanity checks of the embedding on concrete inputs (mirrors Python runs).
example : split_message "hello".data 100 = ["hello".data] := by decide
example : split_message "ab\ncd".data 2 = ["ab".data, "cd".data] := by decide
example : split_message "abcd".data 3 = ["abc".data, "d".data] := by decide
example : split_message "\n\n".data 1 = [] := by decide
example : split_message ['é'] 1 = [[], ['é']] := by decide

/-! ## Round-trip lemmas for the splitter -/

theorem splitLines_ne_nil (s : List Char) : splitLines s ≠ [] := by
  cases s with
  | nil => simp [splitLines]
  | cons c rest =>
    cases h : splitLines rest with
    | nil => simp [splitLines, h]
    | cons l ls =>
      simp only [splitLines, h]
      split <;> simp

theorem interNL_splitLines (s : List Char) : interNL (splitLines s) = s := by
  induction s with
  | nil => simp [splitLines, interNL, tailNL]
  | cons c rest ih =>
    cases h : splitLines rest with
    | nil => exact absurd h (splitLines_ne_nil rest)
    | cons l ls =>
      rw [h] at ih
      by_cases hc : c = '\n'
      · subst hc
        have hs : splitLines ('\n' :: rest) = [] :: l :: ls := by simp [splitLines, h]
        rw [hs]
        simp only [interNL, tailNL, List.nil_append]
        simp only [interNL] at ih
        rw [ih]
      · have hs : splitLines (c :: rest) = (c :: l) :: ls := by simp [splitLines, h, hc]
        rw [hs]
        simp only [interNL, tailNL, List.cons_append]
        simp only [interNL] at ih
        rw [ih]

theorem hardSplitGo_join (B : Nat) (line : List Char) :
    ∀ parts current, (hardSplitGo B line parts current).flatten = parts.flatten ++ current ++ line := by
  induction line with
  | nil =>
    intro parts current
    simp only [hardSplitGo]
    split
    · simp [*]
    · simp
  | cons c rest ih =>
    intro parts current
    simp only [hardSplitGo]
    split
    · rw [ih]; simp
    · rw [ih]; simp

theorem hard_split_line_join (line : List Char) (B : Nat) :
    (hard_split_line line B).flatten = line := by
  simpa using hardSplitGo_join B line [] []

theorem hardSplitGo_ne_nil (B : Nat) (line : List Char) :
    ∀ parts current, parts ≠ [] ∨ current ≠ [] ∨ line ≠ [] →
      hardSplitGo B line parts current ≠ [] := by
  induction line with
  | nil =>
    intro parts current h
    simp only [hardSplitGo]
    split
    next hcur =>
      rcases h with h | h | h
      · exact h
      · exact absurd hcur h
      · exact absurd rfl h
    next => simp
  | cons c rest ih =>
    intro parts current _
    simp only [hardSplitGo]
    split
    · exact ih _ _ (Or.inl (by simp))
    · exact ih _ _ (Or.inr (Or.inl (by simp)))

theorem hard_split_line_ne_nil (line : List Char) (B : Nat) (h : line ≠ []) :
    hard_split_line line B ≠ [] :=
  hardSplitGo_ne_nil B line [] [] (Or.inr (Or.inr h))

theorem reassembles_join : ∀ cs : List (List Char), cs ≠ [] → Reassembles cs cs.flatten := by
  intro cs
  induction cs with
  | nil => intro h; exact absurd rfl h
  | cons c cs ih =>
    intro _
    cases cs with
    | nil => simpa using Reassembles.consEmpty c Reassembles.nil
    | cons d ds => simpa using Reassembles.consEmpty c (ih (by simp))

theorem reassembles_glue :
    ∀ parts : List (List Char), parts ≠ [] →
      ∀ {cs : List (List Char)} {t : List Char}, Reassembles cs t →
        Reassembles (parts ++ cs) (parts.flatten ++ '\n' :: t) := by
  intro parts
  induction parts with
  | nil => intro h; exact absurd rfl h
  | cons p ps ih =>
    intro _ cs t hcs
    cases ps with
    | nil => simpa using Reassembles.consNl p hcs
    | cons q qs =>
      simpa [List.append_assoc] using Reassembles.consEmpty p (ih (by simp) hcs)

theorem flushChunk_eq (chunks : List (List Char)) (current : List Char) :
    flushChunk chunks current = chunks ++ flushChunk [] current := by
  unfold flushChunk
  split <;> simp

theorem splitGo_append (B : Nat) (lines : List (List Char)) :
    ∀ chunks current, splitGo B lines chunks current = chunks ++ splitGo B lines [] current := by
  induction lines with
  | nil =>
    intro chunks current
    simp only [splitGo]
    exact flushChunk_eq chunks current
  | cons line rest ih =>
    intro chunks current
    simp only [splitGo]
    by_cases h1 : utf8Len (joinCand current line) > B
    · simp only [if_pos h1]
      by_cases h2 : utf8Len line > B
      · simp only [if_pos h2]
        rw [ih, ih (flushChunk [] current ++ hard_split_line line B), flushChunk_eq]
        simp [List.append_assoc]
      · simp only [if_neg h2]
        rw [ih, ih (flushChunk [] current), flushChunk_eq]
        simp [List.append_assoc]
    · simp only [if_neg h1]
      rw [ih]

theorem splitGo_reassembles (B : Nat) :
    ∀ lines : List (List Char), (∀ l ∈ lines, l ≠ []) →
      (∀ current, current ≠ [] →
        Reassembles (splitGo B lines [] current) (current ++ tailNL lines)) ∧
      Reassembles (splitGo B lines [] []) (interNL lines) := by
  intro lines
  induction lines with
  | nil =>
    intro _
    constructor
    · intro current hcur
      have h1 : Reassembles [current] (current ++ ([] : List Char)) :=
        Reassembles.consEmpty current Reassembles.nil
      simpa [splitGo, flushChunk, hcur, tailNL] using h1
    · simpa [splitGo, flushChunk, interNL] using Reassembles.nil
  | cons line rest ih =>
    intro hne
    obtain ⟨hline, hrest⟩ := List.forall_mem_cons.mp hne
    obtain ⟨ihA, ihB⟩ := ih hrest
    have hglue : Reassembles (hard_split_line line B ++ splitGo B rest [] [])
        (line ++ tailNL rest) := by
      cases rest with
      | nil =>
        have hj := reassembles_join (hard_split_line line B) (hard_split_line_ne_nil line B hline)
        rw [hard_split_line_join] at hj
        simpa [splitGo, flushChunk, tailNL] using hj
      | cons r rs =>
        have h3 := reassembles_glue (hard_split_line line B)
          (hard_split_line_ne_nil line B hline) ihB
        rw [hard_split_line_join] at h3
        simpa [tailNL, interNL] using h3
    constructor
    · intro current hcur
      simp only [splitGo]
      by_cases h1 : utf8Len (joinCand current line) > B
      · rw [if_pos h1]
        by_cases h2 : utf8Len line > B
        · rw [if_pos h2]
          rw [splitGo_append]
          have h4 := Reassembles.consNl current hglue
          simpa [flushChunk, hcur, tailNL, List.append_assoc] using h4
        · rw [if_neg h2]
          rw [splitGo_append]
          have h4 := Reassembles.consNl current (ihA line hline)
          simpa [flushChunk, hcur, tailNL, List.append_assoc] using h4
      · rw [if_neg h1]
        have h4 := ihA (joinCand current line) (by simp [joinCand, hcur])
        simpa [joinCand, hcur, tailNL, List.append_assoc] using h4
    · simp only [splitGo]
      have hcand : joinCand [] line = line := by simp [joinCand]
      rw [hcand]
      by_cases h1 : utf8Len line > B
      · rw [if_pos h1, if_pos h1]
        rw [splitGo_append]
        simpa [flushChunk, interNL] using hglue
      · rw [if_neg h1]
        have h4 := ihA line hline
        simpa [interNL] using h4

/-- C1 (amended): for every string `s` and byte budget `B`, if `s` fits in `B`
or no line of `s` is empty, then the chunks returned by `split_message s B`,
rejoined with the original line-break separators (a `'\n'` at each
line-boundary split, nothing at each mid-line hard split), reconstruct `s`
exactly.  The original claim, for all inputs, fails: line breaks adjacent to
empty lines are dropped at chunk boundaries (see the counterexample). -/
theorem split_message_reassembles_amended (s : List Char) (B : Nat)
    (h : utf8Len s ≤ B ∨ ∀ l ∈ splitLines s, l ≠ []) :
    Reassembles (split_message s B) s := by
  unfold split_message
  by_cases hfit : utf8Len s ≤ B
  · rw [if_pos hfit]
    simpa using Reassembles.consEmpty s Reassembles.nil
  · rw [if_neg hfit]
    have hl : ∀ l ∈ splitLines s, l ≠ [] := h.resolve_left hfit
    have h2 := (splitGo_reassembles B (splitLines s) hl).2
    rwa [interNL_splitLines] at h2

/-- Witness for C1: the amended theorem applied to the concrete input
`"ab\ncd"` with budget 2 (the input splits into three chunks). -/
theorem split_message_reassembles_amended_witness :
    Reassembles (split_message "ab\ncd".data 2) "ab\ncd".data :=
  split_message_reassembles_amended "ab\ncd".data 2 (Or.inr (by decide))

/-- Counterexample to C1 as stated: for the input `"\n\n"` with budget 1 the
splitter returns zero chunks, so no re-insertion of line-break separators can
reconstruct the input. -/
theorem split_message_reassembles_cex :
    ¬ Reassembles (split_message "\n\n".data 1) "\n\n".data := by
  intro h
  rw [show split_message "\n\n".data 1 = [] from by decide] at h
  rw [show "\n\n".data = ['\n', '\n'] from rfl] at h
  cases h

/-! ## Byte-bound and non-emptiness lemmas for the splitter -/

theorem mem_flushChunk {p : List Char} {chunks : List (List Char)} {current : List Char}
    (h : p ∈ flushChunk chunks current) : p ∈ chunks ∨ p = current := by
  unfold flushChunk at h
  split at h
  · exact Or.inl h
  · rcases List.mem_append.mp h with h | h
    · exact Or.inl h
    · exact Or.inr (List.mem_singleton.mp h)

theorem hardSplitGo_le (B : Nat) (line : List Char) :
    ∀ parts current, (∀ p ∈ parts, utf8Len p ≤ B) → utf8Len current ≤ B →
      (∀ c ∈ line, c.utf8Size ≤ B) →
      ∀ p ∈ hardSplitGo B line parts current, utf8Len p ≤ B := by
  induction line with
  | nil =>
    intro parts current hp hcur _
    simp only [hardSplitGo]
    split
    · exact hp
    · intro p hmem
      rcases List.mem_append.mp hmem with h | h
      · exact hp p h
      · rw [List.mem_singleton.mp h]
        exact hcur
  | cons c rest ih =>
    intro parts current hp hcur hch
    have hc0 : c.utf8Size ≤ B := hch c (by simp)
    have hrest : ∀ d ∈ rest, d.utf8Size ≤ B := fun d hd => hch d (by simp [hd])
    simp only [hardSplitGo]
    split
    next =>
      apply ih _ _ ?_ (by simpa [utf8Len] using hc0) hrest
      intro p hmem
      rcases List.mem_append.mp hmem with h | h
      · exact hp p h
      · rw [List.mem_singleton.mp h]
        exact hcur
    next hle =>
      exact ih _ _ hp (by omega) hrest

theorem splitGo_le (B : Nat) (lines : List (List Char)) :
    ∀ chunks current, (∀ ch ∈ chunks, utf8Len ch ≤ B) → utf8Len current ≤ B →
      (∀ l ∈ lines, ∀ c ∈ l, c.utf8Size ≤ B) →
      ∀ ch ∈ splitGo B lines chunks current, utf8Len ch ≤ B := by
  induction lines with
  | nil =>
    intro chunks current hch hcur _
    simp only [splitGo]
    intro p hmem
    rcases mem_flushChunk hmem with h | h
    · exact hch p h
    · rw [h]; exact hcur
  | cons line rest ih =>
    intro chunks current hch hcur hl
    have hline : ∀ c ∈ line, c.utf8Size ≤ B := hl line (by simp)
    have hrest : ∀ l ∈ rest, ∀ c ∈ l, c.utf8Size ≤ B := fun l h => hl l (by simp [h])
    have hflush : ∀ p ∈ flushChunk chunks current, utf8Len p ≤ B := by
      intro p hmem
      rcases mem_flushChunk hmem with h | h
      · exact hch p h
      · rw [h]; exact hcur
    simp only [splitGo]
    split
    next h1 =>
      split
      next h2 =>
        apply ih _ _ ?_ (by simp [utf8Len]) hrest
        intro p hmem
        rcases List.mem_append.mp hmem with h | h
        · exact hflush p h
        · exact hardSplitGo_le B line [] [] (by simp) (by simp [utf8Len]) hline p h
      next h2 =>
        exact ih _ _ hflush (by omega) hrest
    next h1 =>
      exact ih _ _ hch (by omega) hrest

theorem mem_of_mem_splitLines {s : List Char} :
    ∀ {l : List Char}, l ∈ splitLines s → ∀ {c : Char}, c ∈ l → c ∈ s := by
  induction s with
  | nil =>
    intro l hl c hc
    simp [splitLines] at hl
    subst hl
    simp at hc
  | cons a rest ih =>
    intro l hl c hc
    cases hs : splitLines rest with
    | nil => exact absurd hs (splitLines_ne_nil rest)
    | cons m ms =>
      by_cases ha : a = '\n'
      · rw [show splitLines (a :: rest) = [] :: m :: ms from by simp [splitLines, hs, ha]] at hl
        rcases List.mem_cons.mp hl with h | h
        · subst h; simp at hc
        · exact List.mem_cons_of_mem a (ih (hs ▸ h) hc)
      · rw [show splitLines (a :: rest) = (a :: m) :: ms from by simp [splitLines, hs, ha]] at hl
        rcases List.mem_cons.mp hl with h | h
        · subst h
          rcases List.mem_cons.mp hc with h | h
          · exact h ▸ List.mem_cons_self a rest
          · exact List.mem_cons_of_mem a (ih (hs ▸ List.mem_cons_self m ms) h)
        · exact List.mem_cons_of_mem a (ih (hs ▸ List.mem_cons_of_mem m h) hc)

/-- C3 (amended): for every input string and byte budget `B > 0` such that
every single character of the input fits in `B` when UTF-8 encoded (always
true for `B ≥ 4`), every chunk returned by `split_message` has UTF-8 encoded
byte length at most `B`.  The original claim, for every `B > 0`, fails: when
a single character is wider than the whole budget, the hard splitter emits
that character as an oversized chunk (see the counterexample). -/
theorem split_message_chunk_bytes_amended (text : List Char) (B : Nat) (hB : 0 < B)
    (hch : ∀ c ∈ text, c.utf8Size ≤ B) :
    ∀ chunk ∈ split_message text B, utf8Len chunk ≤ B := by
  unfold split_message
  split
  next h =>
    intro chunk hc
    rw [List.mem_singleton.mp hc]
    exact h
  next h =>
    apply splitGo_le B (splitLines text) [] [] (by simp) (by simp [utf8Len])
    intro l hl c hc
    exact hch c (mem_of_mem_splitLines hl hc)

/-- Witness for C3: the amended theorem at the concrete input `"abcd"` with
budget 3 (each ASCII character is 1 byte, so the hypothesis holds). -/
theorem split_message_chunk_bytes_amended_witness :
    (split_message "abcd".data 3).all (fun chunk => decide (utf8Len chunk ≤ 3)) = true := by
  rw [List.all_eq_true]
  intro chunk hc
  exact decide_eq_true
    (split_message_chunk_bytes_amended "abcd".data 3 (by decide) (by decide) chunk hc)

/-- Counterexample to C3 as stated: with budget `B = 1 > 0` and the two-byte
character `é` as input, `split_message` returns a chunk of 2 bytes. -/
theorem split_message_chunk_bytes_cex :
    ¬ ∀ chunk ∈ split_message ['é'] 1, utf8Len chunk ≤ 1 := by decide

theorem flushChunk_ne_nil {chunks : List (List Char)} {current : List Char}
    (h : chunks ≠ [] ∨ current ≠ []) : flushChunk chunks current ≠ [] := by
  unfold flushChunk
  split
  next hcur =>
    rcases h with h | h
    · exact h
    · exact absurd hcur h
  next => simp

theorem joinCand_ne_nil {current line : List Char} (h : current ≠ [] ∨ line ≠ []) :
    joinCand current line ≠ [] := by
  unfold joinCand
  split
  next hcur =>
    rcases h with h | h
    · exact absurd hcur h
    · exact h
  next => simp

theorem splitGo_ne_nil (B : Nat) (lines : List (List Char)) :
    ∀ chunks current, chunks ≠ [] ∨ current ≠ [] ∨ (∃ l ∈ lines, l ≠ []) →
      splitGo B lines chunks current ≠ [] := by
  induction lines with
  | nil =>
    intro chunks current h
    simp only [splitGo]
    apply flushChunk_ne_nil
    rcases h with h | h | h
    · exact Or.inl h
    · exact Or.inr h
    · simp at h
  | cons line rest ih =>
    intro chunks current h
    simp only [splitGo]
    split
    next h1 =>
      split
      next h2 =>
        apply ih _ _ (Or.inl ?_)
        have hline : line ≠ [] := by
          intro hnil
          rw [hnil] at h2
          simp [utf8Len] at h2
        intro hnil
        exact hard_split_line_ne_nil line B hline (List.append_eq_nil.mp hnil).2
      next h2 =>
        rcases h with h | h | h
        · exact ih _ _ (Or.inl (flushChunk_ne_nil (Or.inl h)))
        · exact ih _ _ (Or.inl (flushChunk_ne_nil (Or.inr h)))
        · rcases h with ⟨l, hl, hlne⟩
          rcases List.mem_cons.mp hl with rfl | hl
          · exact ih _ _ (Or.inr (Or.inl hlne))
          · exact ih _ _ (Or.inr (Or.inr ⟨l, hl, hlne⟩))
    next h1 =>
      rcases h with h | h | h
      · exact ih _ _ (Or.inl h)
      · exact ih _ _ (Or.inr (Or.inl (joinCand_ne_nil (Or.inl h))))
      · rcases h with ⟨l, hl, hlne⟩
        rcases List.mem_cons.mp hl with rfl | hl
        · exact ih _ _ (Or.inr (Or.inl (joinCand_ne_nil (Or.inr hlne))))
        · exact ih _ _ (Or.inr (Or.inr ⟨l, hl, hlne⟩))

theorem splitLines_has_nonempty {text : List Char} (h : ∃ c ∈ text, c ≠ '\n') :
    ∃ l ∈ splitLines text, l ≠ [] := by
  induction text with
  | nil => simp at h
  | cons a rest ih =>
    cases hs : splitLines rest with
    | nil => exact absurd hs (splitLines_ne_nil rest)
    | cons m ms =>
      by_cases ha : a = '\n'
      · subst ha
        have hrest : ∃ c ∈ rest, c ≠ '\n' := by
          rcases h with ⟨c, hc, hcne⟩
          rcases List.mem_cons.mp hc with rfl | hc
          · exact absurd rfl hcne
          · exact ⟨c, hc, hcne⟩
        obtain ⟨l, hl, hlne⟩ := ih hrest
        refine ⟨l, ?_, hlne⟩
        rw [show splitLines ('\n' :: rest) = [] :: m :: ms from by simp [splitLines, hs]]
        exact List.mem_cons_of_mem [] (hs ▸ hl)
      · refine ⟨a :: m, ?_, by simp⟩
        rw [show splitLines (a :: rest) = (a :: m) :: ms from by simp [splitLines, hs, ha]]
        exact List.mem_cons_self (a :: m) ms

theorem hardSplitGo_no_empty (B : Nat) (line : List Char) :
    ∀ parts current, (∀ c ∈ line, c.utf8Size ≤ B) → (∀ p ∈ parts, p ≠ []) →
      ∀ p ∈ hardSplitGo B line parts current, p ≠ [] := by
  induction line with
  | nil =>
    intro parts current _ hp
    simp only [hardSplitGo]
    split
    · exact hp
    next hcur =>
      intro p hmem
      rcases List.mem_append.mp hmem with h | h
      · exact hp p h
      · rw [List.mem_singleton.mp h]
        exact hcur
  | cons c rest ih =>
    intro parts current hch hp
    have hrest : ∀ d ∈ rest, d.utf8Size ≤ B := fun d hd => hch d (by simp [hd])
    simp only [hardSplitGo]
    split
    next hgt =>
      apply ih _ _ hrest
      intro p hmem
      rcases List.mem_append.mp hmem with h | h
      · exact hp p h
      · rw [List.mem_singleton.mp h]
        intro hnil
        rw [hnil] at hgt
        simp only [List.nil_append] at hgt
        have := hch c (by simp)
        simp [utf8Len] at hgt
        omega
    next => exact ih _ _ hrest hp

/-- C4 (amended): `split_message` returns a non-empty sequence of chunks
whenever the input fits in the budget or contains at least one character other
than a line break; empty input yields exactly one empty chunk; and the hard
splitter `_hard_split_line` never emits an empty chunk provided every single
character of its line fits in the budget.  The original claim fails in two
ways: an input consisting only of line breaks and exceeding the budget yields
zero chunks, and the hard splitter emits a leading empty chunk when its first
character is wider than the budget (see the counterexample). -/
theorem split_message_nonempty_amended (text : List Char) (B : Nat) :
    ((utf8Len text ≤ B ∨ ∃ c ∈ text, c ≠ '\n') → split_message text B ≠ []) ∧
    split_message [] B = [[]] ∧
    (∀ line, (∀ c ∈ line, c.utf8Size ≤ B) → ∀ p ∈ hard_split_line line B, p ≠ []) := by
  refine ⟨?_, ?_, ?_⟩
  · intro h
    unfold split_message
    split
    · simp
    next hfit =>
      apply splitGo_ne_nil B (splitLines text) [] []
      exact Or.inr (Or.inr (splitLines_has_nonempty (h.resolve_left hfit)))
  · simp [split_message, utf8Len]
  · intro line hch p hmem
    exact hardSplitGo_no_empty B line [] [] hch (by simp) p hmem

/-- Witness for C4: the amended theorem at concrete inputs — `"a\nb"` with
budget 1 splits into non-empty chunks, the empty input yields one empty
chunk, and hard-splitting `"abc"` at 1 byte emits no empty chunk. -/
theorem split_message_nonempty_amended_witness :
    split_message "a\nb".data 1 ≠ [] ∧
    split_message [] 1 = [[]] ∧
    (hard_split_line "abc".data 1).all (fun p => decide (p ≠ [])) = true :=
  ⟨(split_message_nonempty_amended "a\nb".data 1).1 (Or.inr ⟨'a', by decide, by decide⟩),
   (split_message_nonempty_amended [] 1).2.1,
   by
    rw [List.all_eq_true]
    intro p hp
    exact decide_eq_true
      ((split_message_nonempty_amended [] 1).2.2 "abc".data (by decide) p hp)⟩

/-- Counterexample to C4 as stated: the input `"\n\n"` with budget 1 yields
zero chunks (not a non-empty sequence), and the hard splitter on the single
two-byte character `é` with budget 1 emits an empty chunk. -/
theorem split_message_nonempty_cex :
    split_message "\n\n".data 1 = [] ∧ ¬ (∀ p ∈ hard_split_line ['é'] 1, p ≠ []) := by
  constructor
  · decide
  · decide

/-! ## Poll loop cursor tracking (bot.py lines 458–519)

One iteration of the inner `for room in rooms` loop of `poll_loop`, for a
single room, as a pure step function.  The two process-wide dictionaries
`last_seen` and `initialized_rooms` are modelled as functions from room ids.
Room and message ids are opaque strings in the code, compared only for
equality; they are modelled as `Nat`. -/

/-- Python `str.strip()`: drop leading and trailing whitespace. -/
def pyStrip (s : List Char) : List Char :=
  ((s.dropWhile Char.isWhitespace).reverse.dropWhile Char.isWhitespace).reverse

/-- A Webex message as consumed by `poll_loop`: `msg["id"]`,
`msg.get("personId")`, `msg.get("personEmail", "")`, `msg.get("text", "")`. -/
structure Msg where
  id : Nat
  personId : Option Nat
  personEmail : List Char
  text : List Char
deriving DecidableEq

/-- The poll state of `poll_loop`: the `last_seen` dict and the
`initialized_rooms` set (bot.py lines 461–463). -/
structure PollCursor where
  lastSeen : Nat → Option Nat
  initialized : Nat → Bool

/-- The three skip-checks of the dispatch loop (bot.py lines 505–516): skip
the bot's own messages, unauthorized senders, and empty (stripped) texts. -/
def dispatchFilter (botId : Option Nat) (auth : List Char → Bool) (m : Msg) : Bool :=
  decide (m.personId ≠ botId) && auth m.personEmail && decide (pyStrip m.text ≠ [])

/-- The collection loop of bot.py lines 492–496: take messages from the
newest-first feed until the last-seen id is found. -/
def takeNew (last : Option Nat) : List Msg → List Msg
  | [] => []
  | m :: ms => if some m.id = last then [] else m :: takeNew last ms

/-- Handling of one room inside `poll_loop` (bot.py lines 471–519): returns
the updated cursor state and the messages passed to `dispatch`, in dispatch
order (`dispatch` receives each message's stripped text). -/
def pollRoomStep (botId : Option Nat) (auth : List Char → Bool)
    (cur : PollCursor) (room : Nat) (messages : List Msg) : PollCursor × List Msg :=
  match messages with
  | [] => (cur, [])
  | newest :: _ =>
    if cur.initialized room = false then
      ({ lastSeen := fun r => if r = room then some newest.id else cur.lastSeen r,
         initialized := fun r => if r = room then true else cur.initialized r }, [])
    else if cur.lastSeen room = some newest.id then
      (cur, [])
    else
      ({ cur with lastSeen := fun r => if r = room then some newest.id else cur.lastSeen r },
       (takeNew (cur.lastSeen room) messages).reverse.filter (dispatchFilter botId auth))

theorem takeNew_all (last : Option Nat) :
    ∀ ms : List Msg, (∀ m ∈ ms, some m.id ≠ last) → takeNew last ms = ms := by
  intro ms
  induction ms with
  | nil => intro _; rfl
  | cons m ms ih =>
    intro h
    simp only [takeNew]
    rw [if_neg (h m (by simp)), ih (fun d hd => h d (by simp [hd]))]

/-- C5 (confirmed): for every room whose message feed is non-empty, the first
poll of that room (the room is not yet initialized) records the newest
message id as the cursor, marks the room initialized, and dispatches zero
events, even if the feed already has messages. -/
theorem poll_first_records_newest (botId : Option Nat) (auth : List Char → Bool)
    (cur : PollCursor) (room : Nat) (m : Msg) (ms : List Msg)
    (hinit : cur.initialized room = false) :
    (pollRoomStep botId auth cur room (m :: ms)).2 = [] ∧
    (pollRoomStep botId auth cur room (m :: ms)).1.lastSeen room = some m.id ∧
    (pollRoomStep botId auth cur room (m :: ms)).1.initialized room = true := by
  simp [pollRoomStep, hinit]

/-- Witness for C5: a concrete uninitialized cursor and a two-message feed. -/
theorem poll_first_records_newest_witness :
    (pollRoomStep none (fun _ => true) ⟨fun _ => none, fun _ => false⟩ 7
        [⟨42, none, [], []⟩, ⟨41, none, [], []⟩]).2 = [] ∧
    (pollRoomStep none (fun _ => true) ⟨fun _ => none, fun _ => false⟩ 7
        [⟨42, none, [], []⟩, ⟨41, none, [], []⟩]).1.lastSeen 7 = some 42 ∧
    (pollRoomStep none (fun _ => true) ⟨fun _ => none, fun _ => false⟩ 7
        [⟨42, none, [], []⟩, ⟨41, none, [], []⟩]).1.initialized 7 = true :=
  poll_first_records_newest none (fun _ => true) ⟨fun _ => none, fun _ => false⟩ 7
    ⟨42, none, [], []⟩ [⟨41, none, [], []⟩] rfl

/-- C6 (confirmed): for an initialized room with cursor `lastSeen = X` and a
newest-first fetched feed `[A, B, X, C]` (ids of `A` and `B` distinct from
`X`, and `A`, `B` passing the dispatch filters: not the bot's own message,
authorized sender, non-empty stripped text), exactly the events `[B, A]` are
dispatched, in chronological order — `X` itself and the older message `C`
are excluded — and the cursor is updated to `A`'s id. -/
theorem poll_dispatches_between_cursor_and_newest (botId : Option Nat)
    (auth : List Char → Bool) (cur : PollCursor) (room : Nat) (A B X C : Msg)
    (hinit : cur.initialized room = true)
    (hlast : cur.lastSeen room = some X.id)
    (hA : A.id ≠ X.id) (hB : B.id ≠ X.id)
    (hAbot : A.personId ≠ botId) (hAauth : auth A.personEmail = true)
    (hAtext : pyStrip A.text ≠ [])
    (hBbot : B.personId ≠ botId) (hBauth : auth B.personEmail = true)
    (hBtext : pyStrip B.text ≠ []) :
    (pollRoomStep botId auth cur room [A, B, X, C]).2 = [B, A] ∧
    (pollRoomStep botId auth cur room [A, B, X, C]).1.lastSeen room = some A.id := by
  have hXA : ¬ cur.lastSeen room = some A.id := by
    rw [hlast]
    intro h
    exact hA (Option.some.inj h).symm
  have hfA : dispatchFilter botId auth A = true := by
    simp [dispatchFilter, hAbot, hAauth, hAtext]
  have hfB : dispatchFilter botId auth B = true := by
    simp [dispatchFilter, hBbot, hBauth, hBtext]
  simp [pollRoomStep, hinit, hXA, takeNew, hlast, hA, hB, hfA, hfB, Ne.symm hA]

/-- Witness for C6: a concrete initialized cursor at `X.id = 2` and the
concrete feed `[A, B, X, C]` with ids `4, 3, 2, 1`. -/
theorem poll_dispatches_between_cursor_and_newest_witness :
    (pollRoomStep (some 99) (fun _ => true)
        ⟨fun _ => some 2, fun _ => true⟩ 7
        [⟨4, some 1, [], ['h']⟩, ⟨3, some 1, [], ['h']⟩,
         ⟨2, some 1, [], ['h']⟩, ⟨1, some 1, [], ['h']⟩]).2 =
      [⟨3, some 1, [], ['h']⟩, ⟨4, some 1, [], ['h']⟩] ∧
    (pollRoomStep (some 99) (fun _ => true)
        ⟨fun _ => some 2, fun _ => true⟩ 7
        [⟨4, some 1, [], ['h']⟩, ⟨3, some 1, [], ['h']⟩,
         ⟨2, some 1, [], ['h']⟩, ⟨1, some 1, [], ['h']⟩]).1.lastSeen 7 = some 4 :=
  poll_dispatches_between_cursor_and_newest (some 99) (fun _ => true)
    ⟨fun _ => some 2, fun _ => true⟩ 7
    ⟨4, some 1, [], ['h']⟩ ⟨3, some 1, [], ['h']⟩ ⟨2, some 1, [], ['h']⟩ ⟨1, some 1, [], ['h']⟩
    rfl rfl (by decide) (by decide) (by decide) rfl (by decide)
    (by decide) rfl (by decide)

/-- C10 (confirmed): for an initialized room, if the stored last-seen id does
not appear anywhere in the fetched newest-first page (e.g. the last-seen
message was deleted, or more new messages arrived than the page limit), then
every message of the page (that passes the dispatch filters) is dispatched as
new, oldest first — including messages that are older than the cursor
position. -/
theorem poll_dispatches_all_when_cursor_missing (botId : Option Nat)
    (auth : List Char → Bool) (cur : PollCursor) (room : Nat) (messages : List Msg)
    (hne : messages ≠ [])
    (hinit : cur.initialized room = true)
    (hmiss : ∀ m ∈ messages, some m.id ≠ cur.lastSeen room)
    (hpass : ∀ m ∈ messages, dispatchFilter botId auth m = true) :
    (pollRoomStep botId auth cur room messages).2 = messages.reverse := by
  cases messages with
  | nil => exact absurd rfl hne
  | cons m ms =>
    have h1 : ¬ cur.lastSeen room = some m.id := fun h => (hmiss m (by simp)) h.symm
    simp only [pollRoomStep, hinit, Bool.true_eq_false, if_neg, if_false, h1, ite_false]
    rw [takeNew_all _ _ (fun d hd => hmiss d hd)]
    exact List.filter_eq_self.mpr (fun a ha => hpass a (List.mem_reverse.mp ha))

/-- Witness for C10: a concrete initialized cursor at id 100 and a feed
`[5, 4]` that does not contain id 100 — both messages are dispatched. -/
theorem poll_dispatches_all_when_cursor_missing_witness :
    (pollRoomStep (some 99) (fun _ => true) ⟨fun _ => some 100, fun _ => true⟩ 7
        [⟨5, some 1, [], ['h']⟩, ⟨4, some 1, [], ['h']⟩]).2 =
      [⟨4, some 1, [], ['h']⟩, ⟨5, some 1, [], ['h']⟩] :=
  poll_dispatches_all_when_cursor_missing (some 99) (fun _ => true)
    ⟨fun _ => some 100, fun _ => true⟩ 7
    [⟨5, some 1, [], ['h']⟩, ⟨4, some 1, [], ['h']⟩]
    (by decide) rfl (by decide) (by decide)

/-! ## Conversational turn handling (bot.py lines 371–417)

`handle_text_message` is async Python; its effectful calls are modelled by an
environment that fixes the outcome of each call site.  An outcome is either a
returned value, an ordinary `Exception` (caught by the `except Exception`
block of the turn), or a `SystemExit` (raised by the API client on a 401;
not caught by `except Exception`, it propagates after the `finally` block
runs).  The function returns the post-`finally` state, the ordered list of
calls it made, and whether an uncaught exception propagates to the caller. -/

/-- Outcome of one effectful call: a value, a caught-at-turn-level
`Exception`, or a propagating `SystemExit`. -/
inductive Eff (α : Type) where
  | ok (v : α)
  | exc
  | exit

/-- Whether the outcome raises (either kind). -/
def Eff.isRaised : Eff α → Bool
  | .ok _ => false
  | _ => true

/-- Which kind of exception interrupted the try body. -/
inductive RaiseKind where
  | exc
  | exit
deriving DecidableEq

/-- A `SessionInfo` as cached in `BotState.pending_sessions`.  Modelled from
the spec: the `sessions` module is not part of the repository sources; the
spec describes a SessionSummary as sessionId, displayName, cwd, projectName
and lastActivityTimestamp. -/
structure SessionInfo where
  session_id : List Char
  display : List Char
  cwd : List Char
  project : List Char
  timestamp : Nat
deriving DecidableEq

/-- Per-room bot state (bot.py lines 25–32). -/
structure BotState where
  session_id : Option (List Char)
  session_cwd : Option (List Char)
  session_label : List Char
  skip_permissions : Bool
  pending_sessions : List SessionInfo
  processing : Bool
deriving DecidableEq

/-- An effectful call made by the turn handler, in order: a Webex message
send, a Webex message edit, or an invocation of the Claude CLI backend. -/
inductive Ev where
  | apiSend (room : Nat) (text : List Char)
  | apiEdit (msgId : List Char) (room : Nat) (text : List Char)
  | cliInvoke (sessionId : List Char) (message : List Char)
deriving DecidableEq

/-- Fixed reply strings of bot.py lines 375, 379, 386 and 411. -/
def notConnectedText : List Char := "Not connected. Use `/sessions` to pick a session.".data

def busyText : List Char := "Still processing the previous message. Please wait.".data

def thinkingText : List Char := "Thinking...".data

def turnErrorText : List Char :=
  "An error occurred while processing your message. Check the bot logs for details.".data

/-- Outcomes of every effectful call site of one `handle_text_message` run.
`thinkingRes` carries `thinking.get("id")` (`none` when the key is absent);
`editRes .ok true` means the edit succeeded, `.ok false` means
`edit_message` returned `None` (the caller falls back to a new message). -/
structure TurnEnv where
  thinkingRes : Eff (Option (List Char))
  cliRes : Eff (List Char)
  editRes : Eff Bool
  sendFirstRes : Eff Unit
  chunkSendRes : Nat → Eff Unit
  errEditRes : Eff Unit
  errSendRes : Eff Unit
  busySendRes : Eff Unit
  notConnSendRes : Eff Unit

/-- Python truthiness of `thinking_id` (bot.py line 399): `None` and the
empty string are falsy. -/
def pyTruthy : Option (List Char) → Bool
  | none => false
  | some s => decide (s ≠ [])

/-- The `except Exception` block of bot.py lines 409–415: overwrite the
placeholder with the generic error notice, or send it as a new message.  A
raise inside this handler is not caught and propagates. -/
def exceptPath (env : TurnEnv) (room : Nat) (thinkingId : Option (List Char)) :
    List Ev × Bool :=
  if pyTruthy thinkingId then
    ([Ev.apiEdit (thinkingId.getD []) room turnErrorText], env.errEditRes.isRaised)
  else
    ([Ev.apiSend room turnErrorText], env.errSendRes.isRaised)

/-- The `for chunk in chunks[1:]` loop of bot.py lines 407–408: send each
remaining chunk until one of the sends raises. -/
def sendChunksLoop (env : TurnEnv) (room : Nat) :
    List (List Char) → Nat → List Ev × Option RaiseKind
  | [], _ => ([], none)
  | c :: cs, k =>
    match env.chunkSendRes k with
    | .ok _ =>
      let r := sendChunksLoop env room cs (k + 1)
      (Ev.apiSend room c :: r.1, r.2)
    | .exc => ([Ev.apiSend room c], some .exc)
    | .exit => ([Ev.apiSend room c], some .exit)

/-- Delivery of the response chunks (bot.py lines 398–408): edit the
placeholder with the first chunk (falling back to a new message when the edit
returns `None`), then send the remaining chunks. -/
def deliverChunks (env : TurnEnv) (room : Nat) (tid : Option (List Char))
    (c0 : List Char) (restChunks : List (List Char)) : List Ev × Option RaiseKind :=
  if pyTruthy tid then
    let eid := tid.getD []
    match env.editRes with
    | .ok edited =>
      if edited then
        let r := sendChunksLoop env room restChunks 0
        (Ev.apiEdit eid room c0 :: r.1, r.2)
      else
        match env.sendFirstRes with
        | .ok _ =>
          let r := sendChunksLoop env room restChunks 0
          (Ev.apiEdit eid room c0 :: Ev.apiSend room c0 :: r.1, r.2)
        | .exc => ([Ev.apiEdit eid room c0, Ev.apiSend room c0], some .exc)
        | .exit => ([Ev.apiEdit eid room c0, Ev.apiSend room c0], some .exit)
    | .exc => ([Ev.apiEdit eid room c0], some .exc)
    | .exit => ([Ev.apiEdit eid room c0], some .exit)
  else
    match env.sendFirstRes with
    | .ok _ =>
      let r := sendChunksLoop env room restChunks 0
      (Ev.apiSend room c0 :: r.1, r.2)
    | .exc => ([Ev.apiSend room c0], some .exc)
    | .exit => ([Ev.apiSend room c0], some .exit)

/-- The try/except body of bot.py lines 384–415 (entered with the guard
claimed): send the placeholder, invoke the CLI, split, deliver.  Note that
when `split_message` returns zero chunks, `chunks[0]` raises an `IndexError`,
which the `except Exception` block catches.  Returns the calls made and
whether an uncaught exception propagates. -/
def turnTry (env : TurnEnv) (sid : List Char) (room : Nat) (text : List Char)
    (maxBytes : Nat) : List Ev × Bool :=
  let thinkEv := Ev.apiSend room thinkingText
  match env.thinkingRes with
  | .exc =>
    let e := exceptPath env room none
    (thinkEv :: e.1, e.2)
  | .exit => ([thinkEv], true)
  | .ok tid =>
    match env.cliRes with
    | .exc =>
      let e := exceptPath env room tid
      (thinkEv :: Ev.cliInvoke sid text :: e.1, e.2)
    | .exit => ([thinkEv, Ev.cliInvoke sid text], true)
    | .ok response =>
      match split_message response maxBytes with
      | [] =>
        let e := exceptPath env room tid
        (thinkEv :: Ev.cliInvoke sid text :: e.1, e.2)
      | c0 :: restChunks =>
        let d := deliverChunks env room tid c0 restChunks
        match d.2 with
        | none => (thinkEv :: Ev.cliInvoke sid text :: d.1, false)
        | some .exc =>
          let e := exceptPath env room tid
          (thinkEv :: Ev.cliInvoke sid text :: (d.1 ++ e.1), e.2)
        | some .exit => (thinkEv :: Ev.cliInvoke sid text :: d.1, true)

/-- Result of one `handle_text_message` run: the state after the `finally`
block, the ordered calls made, and whether an exception propagates. -/
structure TurnResult where
  state : BotState
  events : List Ev
  raised : Bool

/-- `handle_text_message(api, room_id, text)` from bot.py lines 371–417.  The
guard rejections (not connected, busy) return before the try block; otherwise
`state.processing` is set for the span of the try body, no other state field
is assigned anywhere in the function, and the `finally` block clears
`processing` on every exit path — so the returned state is the input state
with `processing := false`. -/
def handle_text_message (env : TurnEnv) (st : BotState) (room : Nat) (text : List Char)
    (maxBytes : Nat) : TurnResult :=
  match st.session_id with
  | none =>
    { state := st, events := [Ev.apiSend room notConnectedText],
      raised := env.notConnSendRes.isRaised }
  | some sid =>
    if st.processing then
      { state := st, events := [Ev.apiSend room busyText],
        raised := env.busySendRes.isRaised }
    else
      let tr := turnTry env sid room text maxBytes
      { state := { st with processing := false }, events := tr.1, raised := tr.2 }

/-- C2 (confirmed): the single-flight guard.  (a) If `processing` is false on
entry then it is false again when `handle_text_message` returns, on every
exit path — success, caught exception, uncaught `SystemExit`, and the CLI
timeout (which `cli_send_message` surfaces as a returned error string, an
`Eff.ok` of the environment) — because the `finally` block clears it.
(b) While the guard is true, a second overlapping conversational turn causes
no second backend invocation and no state mutation, and (for a connected
conversation, the only way a backend invocation can be in flight) it is
rejected with exactly the busy reply. -/
theorem handle_text_message_single_flight (env : TurnEnv) (st : BotState) (room : Nat)
    (text : List Char) (maxBytes : Nat) :
    (st.processing = false →
      (handle_text_message env st room text maxBytes).state.processing = false) ∧
    (st.processing = true →
      (handle_text_message env st room text maxBytes).state = st ∧
      (∀ s m, Ev.cliInvoke s m ∉ (handle_text_message env st room text maxBytes).events) ∧
      (∀ sid, st.session_id = some sid →
        (handle_text_message env st room text maxBytes).events = [Ev.apiSend room busyText])) := by
  constructor
  · intro hproc
    unfold handle_text_message
    cases hsid : st.session_id with
    | none => exact hproc
    | some sid => simp [hproc]
  · intro hproc
    unfold handle_text_message
    cases hsid : st.session_id with
    | none =>
      refine ⟨rfl, ?_, ?_⟩
      · intro s m
        simp
      · intro sid h
        simp [hsid] at h
    | some sid =>
      simp [hproc]

/-- An environment in which every call succeeds: the placeholder send returns
id `"t"`, the CLI returns `"r"`, and the placeholder edit succeeds. -/
def envAllOk : TurnEnv :=
  { thinkingRes := .ok (some ['t']), cliRes := .ok ['r'], editRes := .ok true,
    sendFirstRes := .ok (), chunkSendRes := fun _ => .ok (), errEditRes := .ok (),
    errSendRes := .ok (), busySendRes := .ok (), notConnSendRes := .ok () }

/-- A connected, idle per-room state. -/
def stIdleW : BotState :=
  { session_id := some ['s'], session_cwd := some ['d'], session_label := ['s'],
    skip_permissions := false, pending_sessions := [], processing := false }

/-- A connected state whose single-flight guard is held. -/
def stBusyW : BotState :=
  { session_id := some ['s'], session_cwd := some ['d'], session_label := ['s'],
    skip_permissions := false, pending_sessions := [], processing := true }

/-- Witness for C2: the theorem applied at a concrete idle state (the guard is
clear on return) and at a concrete busy state (the call is rejected with the
busy reply, no CLI invocation, state unchanged). -/
theorem handle_text_message_single_flight_witness :
    (handle_text_message envAllOk stIdleW 7 ['h'] 10).state.processing = false ∧
    (handle_text_message envAllOk stBusyW 7 ['h'] 10).state = stBusyW ∧
    Ev.cliInvoke ['s'] ['h'] ∉ (handle_text_message envAllOk stBusyW 7 ['h'] 10).events ∧
    (handle_text_message envAllOk stBusyW 7 ['h'] 10).events = [Ev.apiSend 7 busyText] :=
  ⟨(handle_text_message_single_flight envAllOk stIdleW 7 ['h'] 10).1 rfl,
   ((handle_text_message_single_flight envAllOk stBusyW 7 ['h'] 10).2 rfl).1,
   ((handle_text_message_single_flight envAllOk stBusyW 7 ['h'] 10).2 rfl).2.1 ['s'] ['h'],
   ((handle_text_message_single_flight envAllOk stBusyW 7 ['h'] 10).2 rfl).2.2 ['s'] rfl⟩

/-! ## Resilient API client (webex_api.py lines 12 and 43–104)

The retry loop of `WebexAPI._request`, as a function of the outcomes of the
underlying `self._client.request` calls: each attempt either raises an
`httpx.RequestError` or yields a response with a status code.  The backoff
sleeps do not affect the control flow and are not modelled.  `response.json()`
is abstracted by carrying the status code of the successful response. -/

def MAX_RETRIES : Nat := 3

/-- Outcome of one `self._client.request(...)` call. -/
inductive HttpAttempt where
  | raiseReq
  | resp (status : Nat)
deriving DecidableEq

/-- What `_request` does overall: return the parsed body (of the response
with the given status), raise `SystemExit` (fatal 401), raise at
`raise_for_status` (4xx/5xx), raise the generic retries-exhausted
`HTTPStatusError`, or propagate the last `RequestError`. -/
inductive ReqResult where
  | ok (status : Nat)
  | fatal
  | statusError (status : Nat)
  | exhaustedErr
  | reqError
deriving DecidableEq

/-- The `for attempt in range(1, MAX_RETRIES + 1)` loop of webex_api.py lines
54–96, from a given attempt number, with `fuel` iterations left; the second
component counts the HTTP calls actually made.  Running out of fuel is the
loop ending, which raises the exhausted error of lines 99–104. -/
def requestLoop (outcomes : Nat → HttpAttempt) : Nat → Nat → ReqResult × Nat
  | 0, _ => (.exhaustedErr, 0)
  | fuel + 1, attempt =>
    match outcomes attempt with
    | .raiseReq =>
      if attempt < MAX_RETRIES then
        let r := requestLoop outcomes fuel (attempt + 1)
        (r.1, r.2 + 1)
      else (.reqError, 1)
    | .resp status =>
      if status = 429 then
        let r := requestLoop outcomes fuel (attempt + 1)
        (r.1, r.2 + 1)
      else if status = 401 then (.fatal, 1)
      else if 500 ≤ status ∧ attempt < MAX_RETRIES then
        let r := requestLoop outcomes fuel (attempt + 1)
        (r.1, r.2 + 1)
      else if 400 ≤ status then (.statusError status, 1)
      else (.ok status, 1)

/-- `WebexAPI._request`, webex_api.py lines 43–104: the loop entered at
attempt 1 with `MAX_RETRIES` iterations available. -/
def webex_request (outcomes : Nat → HttpAttempt) : ReqResult × Nat :=
  requestLoop outcomes MAX_RETRIES 1

/-- An attempt outcome after which the loop retries (when budget remains):
a network-level `RequestError`, a 429, or a 5xx. -/
def retriableAttempt : HttpAttempt → Prop
  | .raiseReq => True
  | .resp status => status = 429 ∨ 500 ≤ status

instance : DecidablePred retriableAttempt := by
  intro a
  cases a with
  | raiseReq => exact isTrue trivial
  | resp status => exact inferInstanceAs (Decidable (_ ∨ _))

theorem requestLoop_401 (outcomes : Nat → HttpAttempt) :
    ∀ fuel attempt k, attempt + fuel = MAX_RETRIES + 1 → attempt ≤ k → k ≤ MAX_RETRIES →
      outcomes k = .resp 401 →
      (∀ j, attempt ≤ j → j < k → retriableAttempt (outcomes j)) →
      requestLoop outcomes fuel attempt = (.fatal, k - attempt + 1) := by
  intro fuel
  induction fuel with
  | zero =>
    intro attempt k hrel hak hkM _ _
    exfalso
    omega
  | succ fuel ih =>
    intro attempt k hrel hak hkM h401 hpre
    by_cases hek : attempt = k
    · subst hek
      simp only [requestLoop, h401]
      norm_num
    · have hlt : attempt < k := lt_of_le_of_ne hak hek
      have hretr := hpre attempt le_rfl hlt
      have hattM : attempt < MAX_RETRIES := by omega
      have hrec := ih (attempt + 1) k (by omega) (by omega) hkM h401
        (fun j hj1 hj2 => hpre j (by omega) hj2)
      cases ho : outcomes attempt with
      | raiseReq =>
        simp only [requestLoop, ho, if_pos hattM, hrec, Prod.mk.injEq]
        exact ⟨trivial, by omega⟩
      | resp status =>
        rw [ho] at hretr
        simp only [retriableAttempt] at hretr
        rcases hretr with h429 | h5xx
        · subst h429
          simp only [requestLoop, ho, if_pos rfl, hrec, Prod.mk.injEq, if_true, true_and]
          omega
        · have hn429 : status ≠ 429 := by omega
          have hn401 : status ≠ 401 := by omega
          simp only [requestLoop, ho, if_neg hn429, if_neg hn401,
            if_pos (And.intro h5xx hattM), hrec, Prod.mk.injEq]
          exact ⟨trivial, by omega⟩

/-- C7 (confirmed): for every sequence of attempt outcomes, if the `k`-th
attempt (1 ≤ k ≤ MAX_RETRIES) observes an HTTP 401 and every earlier attempt
was a retried outcome (network error, 429, or 5xx), then `_request` raises
the fatal `SystemExit` immediately on that attempt: exactly `k` HTTP calls
are made, with no retry after the 401, regardless of how many retry attempts
remain in the budget. -/
theorem webex_request_401_fatal (outcomes : Nat → HttpAttempt) (k : Nat)
    (h1 : 1 ≤ k) (hk : k ≤ MAX_RETRIES)
    (h401 : outcomes k = .resp 401)
    (hpre : ∀ j, 1 ≤ j → j < k → retriableAttempt (outcomes j)) :
    webex_request outcomes = (.fatal, k) := by
  unfold webex_request
  rw [requestLoop_401 outcomes MAX_RETRIES 1 k (by omega) h1 hk h401 hpre]
  congr 1
  omega

/-- Witness for C7: a 429 on attempt 1 followed by a 401 on attempt 2 — the
request is fatal after exactly 2 HTTP calls, with one retry attempt still in
budget. -/
theorem webex_request_401_fatal_witness :
    webex_request (fun j => if j = 1 then .resp 429 else .resp 401) = (.fatal, 2) :=
  webex_request_401_fatal (fun j => if j = 1 then .resp 429 else .resp 401) 2
    (by norm_num) (by norm_num [MAX_RETRIES]) (by norm_num)
    (by
      intro j hj1 hj2
      have : j = 1 := by omega
      subst this
      simp [retriableAttempt])

/-! ## Subprocess bridge (claude_cli.py lines 18–84)

`send_message` of claude_cli.py as a function of its effect outcomes: whether
`shutil.which("claude")` finds the executable, the outcome of
`asyncio.create_subprocess_exec`, and the outcome of the timeout-bounded
`process.communicate()`.  The construction of the argument vector (lines
30–39) and the sanitized environment (lines 11–15) configure the spawned
child only and do not affect the returned string; stdout and stderr are
modelled post-decoding (`decode("utf-8", errors="replace")` yields a
code-point sequence).  The fixed timeout `CLI_TIMEOUT_SECONDS` comes from the
`config` module, which is not part of the repository sources; it is passed
as the parameter `timeoutSecs`. -/

/-- Python `str.lower()` (ASCII-relevant part). -/
def lowerStr (s : List Char) : List Char := s.map Char.toLower

/-- Python `pat in hay` substring containment. -/
def containsSub (hay pat : List Char) : Bool := hay.tails.any (fun t => pat.isPrefixOf t)

/-- The credential-hint predicate of claude_cli.py line 77:
`"expired" in stderr_text.lower() or "credential" in stderr_text.lower()`. -/
def credHint (stderr_text : List Char) : Bool :=
  containsSub (lowerStr stderr_text) "expired".data ||
    containsSub (lowerStr stderr_text) "credential".data

/-- Outcome of `asyncio.create_subprocess_exec` (claude_cli.py lines 44–54). -/
inductive SpawnOutcome where
  | ok
  | fileNotFound
  | osError (msg : List Char)
deriving DecidableEq

/-- Outcome of `process.communicate()` bounded by `asyncio.wait_for`
(claude_cli.py lines 59–67): the timeout fires, or the child exits with a
return code and decoded stdout/stderr. -/
inductive CommOutcome where
  | timeout
  | done (returncode : Int) (stdout : List Char) (stderr : List Char)
deriving DecidableEq

/-- What one `send_message` run returns and which process-lifecycle actions
it took: the reply string, whether `process.kill()` ran, and whether
`process.wait()` ran. -/
structure SendResult where
  reply : List Char
  procKilled : Bool
  procWaited : Bool
deriving DecidableEq

/-- claude_cli.py lines 27–28 and 51–52. -/
def cliNotFoundText : List Char :=
  "Error: 'claude' CLI not found on PATH. Make sure Claude Code is installed.".data

/-- claude_cli.py line 54. -/
def cliStartErrorText (e : List Char) : List Char := "Error starting CLI: ".data ++ e

/-- claude_cli.py line 67. -/
def cliTimeoutText (timeoutSecs : Nat) : List Char :=
  "Error: CLI timed out after ".data ++ (toString timeoutSecs).data ++
    " seconds. The process was killed.".data

/-- claude_cli.py line 73. -/
def cliExitErrorText (returncode : Int) : List Char :=
  "Claude encountered an error (exit code ".data ++ (toString returncode).data ++
    "). Try sending your message again, or disconnect and reconnect.".data

/-- claude_cli.py line 78. -/
def credentialHintText : List Char :=
  "\n\nThis may be an AWS credentials issue. Check your credentials.".data

/-- claude_cli.py line 82. -/
def noOutputText : List Char := "Claude completed the request but returned no output.".data

/-- `send_message(session_id, message, cwd, skip_permissions)` from
claude_cli.py lines 18–84.  stderr is only logged server-side (line 76); the
returned string uses it solely through `credHint`. -/
def cli_send_message (timeoutSecs : Nat) (claudeOnPath : Bool)
    (spawn : SpawnOutcome) (comm : CommOutcome) : SendResult :=
  if !claudeOnPath then
    { reply := cliNotFoundText, procKilled := false, procWaited := false }
  else
    match spawn with
    | .fileNotFound => { reply := cliNotFoundText, procKilled := false, procWaited := false }
    | .osError e => { reply := cliStartErrorText e, procKilled := false, procWaited := false }
    | .ok =>
      match comm with
      | .timeout =>
        { reply := cliTimeoutText timeoutSecs, procKilled := true, procWaited := true }
      | .done rc stdout stderr =>
        let stdout_text := pyStrip stdout
        let stderr_text := pyStrip stderr
        if rc ≠ 0 then
          if credHint stderr_text then
            { reply := cliExitErrorText rc ++ credentialHintText,
              procKilled := false, procWaited := false }
          else
            { reply := cliExitErrorText rc, procKilled := false, procWaited := false }
        else if stdout_text = [] then
          { reply := noOutputText, procKilled := false, procWaited := false }
        else
          { reply := stdout_text, procKilled := false, procWaited := false }

/-- C8 (confirmed): when the backend invocation exceeds the fixed timeout,
`send_message` kills the child process, waits on it, and returns the
timeout-specific error string rather than raising — the timeout branch is a
normal return, and no other branch of a completed run kills the process. -/
theorem cli_timeout_kills_and_returns (timeoutSecs : Nat) (rc : Int)
    (stdout stderr : List Char) :
    cli_send_message timeoutSecs true .ok .timeout =
      { reply := cliTimeoutText timeoutSecs, procKilled := true, procWaited := true } ∧
    (cli_send_message timeoutSecs true .ok (.done rc stdout stderr)).procKilled = false := by
  refine ⟨rfl, ?_⟩
  simp only [cli_send_message]
  split
  · rfl
  · split
    · split <;> rfl
    · split <;> rfl

/-- C9 (confirmed): the string returned by the subprocess bridge depends on
the child's stderr only through whether it contains the substrings "expired"
or "credential" (which selects the fixed credential hint): two runs that are
identical except for stderr content and agree on that predicate return
identical results.  In particular stderr text itself is never echoed to the
chat surface — it is logged server-side only. -/
theorem cli_stderr_noninterference (timeoutSecs : Nat) (claudeOnPath : Bool)
    (spawn : SpawnOutcome) (rc : Int) (stdout stderr1 stderr2 : List Char)
    (h : credHint (pyStrip stderr1) = credHint (pyStrip stderr2)) :
    cli_send_message timeoutSecs claudeOnPath spawn (.done rc stdout stderr1) =
      cli_send_message timeoutSecs claudeOnPath spawn (.done rc stdout stderr2) := by
  simp only [cli_send_message]
  rw [h]

/-- Witness for C9: an "expired token" stderr and a "bad credential" stderr
(both trigger the hint) yield the same reply on a failing exit. -/
theorem cli_stderr_noninterference_witness :
    cli_send_message 300 true .ok (.done 1 [] "token expired!".data) =
      cli_send_message 300 true .ok (.done 1 [] "bad credential".data) :=
  cli_stderr_noninterference 300 true .ok 1 [] "token expired!".data
    "bad credential".data (by decide)
